import Mathlib

/-!
A shallow embedding of the `tz-search` crate (`src/lib.rs`, `src/tables.rs`):
a multi-resolution tile index mapping latitude/longitude points to timezone
names.  Byte streams are modelled as `List Nat` (each element a `u8` value),
machine integers as `Nat` with explicit reductions modulo `2^w` where the
source truncates, geographic coordinates (`f64` in the source) as `ℚ`, and
fallible or panicking code by `Option`-like result types.  Recursive leaf
resolution, whose termination is data-dependent in the source, is modelled
with an explicit fuel parameter and a distinguished fuel-exhaustion result.
-/

/-- `tables::DEG_PIXELS` from `src/tables.rs`: pixels per degree. -/
def tables.DEG_PIXELS : Nat := 32

/-- `tables::NUM_LEAVES` from `src/tables.rs`: number of leaf records. -/
def tables.NUM_LEAVES : Nat := 14356

/-- `TileKey` is a newtype over `u32` in the source; modelled as `Nat`
(the packed value is proved `< 2^32`). -/
abbrev TileKey := Nat

/-- `TileKey::new(size: u8, x: u16, y: u16)` from `src/lib.rs`:
`(size % 8) << 28 | (y % (1<<14)) << 14 | (x % (1<<14))` computed in `u32`.
The `u8`/`u16` arguments are modelled as arbitrary `Nat`; for values in the
source types the extra modulo reductions below are the identity on the
fields the source keeps. -/
def TileKey.new (size x y : Nat) : Nat :=
  ((size % 8) <<< 28) ||| ((y % (1 <<< 14)) <<< 14) ||| (x % (1 <<< 14))

/-- One record of a zoom-level table (`struct TileLooker` in `src/lib.rs`):
a packed tile key and a `u16` leaf index. -/
structure TileLooker where
  tile : TileKey
  idx : Nat
deriving DecidableEq, Repr

/-- A zoom level is its sorted list of tile records (`struct ZoomLevel`). -/
abbrev ZoomLevel := List TileLooker

/-- The three leaf encodings (`enum Zone` in `src/lib.rs`).  `OneBitTile`
carries two `u16` child indices and the 8 decoded row bytes; `Pixmap`
carries its raw 128 bytes. -/
inductive Zone where
  | StaticZone : String → Zone
  | OneBitTile : Nat → Nat → List Nat → Zone
  | Pixmap : List Nat → Zone
deriving DecidableEq, Repr

/-- The whole index (`struct TzSearch`). -/
structure TzSearch where
  leaves : List Zone
  zoom_levels : List ZoomLevel
deriving DecidableEq, Repr

/-- Outcome of the query path.  `result r` is the `Option<Option<String>>`
payload the source returns (`result (some s)` a zone name, `result none`
the definitive ocean answer); `panic` models an out-of-bounds `Vec` index
(the source would panic); `fuelOut` is the fuel-exhaustion marker of the
embedding, reachable only on cyclic leaf-reference chains. -/
inductive LookupOutcome where
  | result : Option String → LookupOutcome
  | panic : LookupOutcome
  | fuelOut : LookupOutcome
deriving DecidableEq, Repr

/-- The big-endian `u16` read a `Pixmap` performs at byte offset `2*k`:
`((p[i] as usize) << 8) + p[i+1] as usize` with `i = 2*k` in
`TzSearch::zone_lookup`. -/
def pixmapEntry (p : List Nat) (k : Nat) : Nat :=
  ((p.getD (2 * k) 0) <<< 8) + p.getD (2 * k + 1) 0

/-- `TzSearch::zone_lookup` from `src/lib.rs`, phrased on leaf indices: the
source call `zone_lookup(&self.leaves[idx], x, y, tk)` indexes the leaf
store (panicking when out of range) and dispatches on the variant.  `fuel`
bounds the recursion depth; each recursive hop consumes one unit. -/
def TzSearch.zoneLookup (leaves : List Zone) (x y : Nat) : Nat → Nat → LookupOutcome
  | 0, _ => .fuelOut
  | fuel + 1, i =>
    match leaves[i]? with
    | none => .panic
    | some (Zone.StaticZone s) => .result (some s)
    | some (Zone.OneBitTile i0 i1 rows) =>
      let idx := if rows.getD (y &&& 7) 0 &&& (1 <<< (x &&& 7)) ≠ 0 then i1 else i0
      TzSearch.zoneLookup leaves x y fuel idx
    | some (Zone.Pixmap p) =>
      let idx := pixmapEntry p ((y &&& 7) * 8 + (x &&& 7))
      if idx = 0xFFFF then .result none
      else TzSearch.zoneLookup leaves x y fuel idx

/-- Lower-bound binary search.  Modelled from the spec: the source calls the
standard library's `slice::binary_search_by` (not in `src/`), described by
the spec as a lower-bound binary search whose result is taken via
`unwrap_or_else(|x| x)` (match position or insertion point).  The interval
shrinks each step, tracked by an explicit fuel argument (`hi - lo` at the
top-level call is always sufficient). -/
def lbGo (keys : List Nat) (tk : Nat) : Nat → Nat → Nat → Nat
  | 0, lo, _ => lo
  | fuel + 1, lo, hi =>
    if lo < hi then
      let mid := (lo + hi) / 2
      if keys.getD mid 0 < tk then lbGo keys tk fuel (mid + 1) hi
      else lbGo keys tk fuel lo mid
    else lo

/-- Entry point of the lower-bound search over a whole key list. -/
def lowerBound (keys : List Nat) (tk : Nat) : Nat :=
  lbGo keys tk keys.length 0 keys.length

/-- `TzSearch::zoom_level_lookup` from `src/lib.rs`: binary-search the
level's sorted record list; only an exact key match resolves the leaf,
otherwise `none` (try the next coarser level). -/
def TzSearch.zoomLevelLookup (leaves : List Zone) (zl : ZoomLevel) (fuel x y : Nat)
    (tk : TileKey) : Option LookupOutcome :=
  let pos := lowerBound (zl.map TileLooker.tile) tk
  match zl[pos]? with
  | some tl => if tl.tile = tk then some (TzSearch.zoneLookup leaves x y fuel tl.idx) else none
  | none => none

/-- The packed query key at a zoom level: `shift = 3 + level`,
`xt = x >> shift`, `yt = y >> shift`, then `TileKey::new(level, xt as u16,
yt as u16)`; the `as u16` casts are the reductions modulo `2^16`. -/
def levelKey (level x y : Nat) : TileKey :=
  TileKey.new level ((x >>> (3 + level)) % 65536) ((y >>> (3 + level)) % 65536)

/-- The level scan of `TzSearch::lookup_pixel`, over an explicit list of
remaining levels: the first level whose table has an exact match returns
its resolved answer immediately; if no level matches the result is
`None`. -/
def TzSearch.lookupPixelGo (s : TzSearch) (fuel x y : Nat) : List Nat → LookupOutcome
  | [] => .result none
  | level :: rest =>
    match TzSearch.zoomLevelLookup s.leaves (s.zoom_levels.getD level []) fuel x y
        (levelKey level x y) with
    | some r => r
    | none => TzSearch.lookupPixelGo s fuel x y rest

/-- `TzSearch::lookup_pixel` from `src/lib.rs`: `for level in (0..6).rev()`
scans levels 5 (finest) down to 0 (coarsest). -/
def TzSearch.lookupPixel (s : TzSearch) (fuel x y : Nat) : LookupOutcome :=
  TzSearch.lookupPixelGo s fuel x y [5, 4, 3, 2, 1, 0]

/-- The nested `fn clamp(x: isize, lim: isize) -> usize` of
`TzSearch::lookup`: `cmp::max(0, cmp::min(lim * DEG_PIXELS, x)) as usize`. -/
def TzSearch.clamp (x lim : Int) : Nat :=
  (max 0 (min (lim * (tables.DEG_PIXELS : Int)) x)).toNat

/-- The unclamped pixel column of `TzSearch::lookup`:
`((long + 180.0) * DEG_PIXELS) as isize`.  The `f64` value is modelled as
`ℚ`; the `as isize` cast truncates toward zero, which for the non-negative
operand arising from an in-range longitude is the floor (and for a negative
operand both the truncation and the floor are clamped to `0` below, so the
composite is unchanged). -/
def TzSearch.rawX (long : ℚ) : Int := ⌊(long + 180) * (tables.DEG_PIXELS : ℚ)⌋

/-- The unclamped pixel row of `TzSearch::lookup`:
`((90.0 - lat) * DEG_PIXELS) as isize`, modelled as for `TzSearch.rawX`. -/
def TzSearch.rawY (lat : ℚ) : Int := ⌊(90 - lat) * (tables.DEG_PIXELS : ℚ)⌋

/-- The clamped pixel column computed by `TzSearch::lookup`. -/
def TzSearch.pixelX (long : ℚ) : Nat := TzSearch.clamp (TzSearch.rawX long) 360

/-- The clamped pixel row computed by `TzSearch::lookup`. -/
def TzSearch.pixelY (lat : ℚ) : Nat := TzSearch.clamp (TzSearch.rawY lat) 180

/-- Big-endian composition of a byte list (`byteorder::BigEndian`).
Modelled from the spec: the source calls the external `byteorder` crate's
`read_uN::<BigEndian>` readers (not in `src/`); each byte is reduced
modulo 256 to reflect its `u8` type. -/
def beVal (bs : List Nat) : Nat := bs.foldl (fun a b => a * 256 + b % 256) 0

/-- Read `k` big-endian bytes from a stream, or fail at end of stream (the
`byteorder` readers return `UnexpectedEof`, which the source `unwrap`s
into a panic). -/
def readBE (k : Nat) (s : List Nat) : Option (Nat × List Nat) :=
  if k ≤ s.length then some (beVal (s.take k), s.drop k) else none

/-- The record-parsing loop of `TzSearch::new` for one zoom-level buffer:
`count` iterations each reading a `u32` big-endian tile key and a `u16`
big-endian leaf index. -/
def parseTiles : Nat → List Nat → Option (List TileLooker)
  | 0, _ => some []
  | c + 1, s => do
    let (k, s1) ← readBE 4 s
    let (i, s2) ← readBE 2 s1
    let rest ← parseTiles c s2
    some (⟨k, i⟩ :: rest)

/-- Decoding of one zoom-level buffer in `TzSearch::new`:
`assert_eq!(slurp.len() % 6, 0)` (a panic on failure, modelled as `none`),
then `slurp.len() / 6` records are parsed. -/
def decodeZoomTable (bs : List Nat) : Option (List TileLooker) :=
  if bs.length % 6 = 0 then parseTiles (bs.length / 6) bs else none

/-- `BufRead::read_until(0, ..)` as used by the `'S'` branch of
`TzSearch::new`: consume bytes up to and including the first `0`, or all
remaining bytes when no `0` occurs before end of stream (end of stream is
not an error for `read_until`). -/
def readUntil0 : List Nat → List Nat × List Nat
  | [] => ([], [])
  | b :: r =>
    if b = 0 then ([0], r)
    else
      let (nm, rest) := readUntil0 r
      (b :: nm, rest)

/-- `if zone_name.last() == Some(&0) then zone_name.pop()` from the `'S'`
branch: the trailing `0` is stripped only when present. -/
def stripLast0 (l : List Nat) : List Nat :=
  if l.getLast? = some 0 then l.dropLast else l

/-- UTF-8 decoding of a byte list.  Modelled from the spec: the source
calls the standard library's `String::from_utf8` (not in `src/`), which
accepts exactly the RFC 3629 encodings (no overlong forms, no surrogate
code points, nothing above `U+10FFFF`) and fails otherwise. -/
def utf8Decode : List Nat → Option (List Char)
  | [] => some []
  | b :: r =>
    if b < 0x80 then (utf8Decode r).map (fun cs => Char.ofNat b :: cs)
    else if b < 0xC2 then none
    else if b < 0xE0 then
      match r with
      | c1 :: r1 =>
        if 0x80 ≤ c1 ∧ c1 < 0xC0 then
          (utf8Decode r1).map (fun cs => Char.ofNat ((b - 0xC0) * 64 + (c1 - 0x80)) :: cs)
        else none
      | [] => none
    else if b < 0xF0 then
      match r with
      | c1 :: c2 :: r2 =>
        if (0x80 ≤ c1 ∧ c1 < 0xC0) ∧ (0x80 ≤ c2 ∧ c2 < 0xC0) then
          let cp := (b - 0xE0) * 4096 + (c1 - 0x80) * 64 + (c2 - 0x80)
          if cp < 0x800 ∨ (0xD800 ≤ cp ∧ cp < 0xE000) then none
          else (utf8Decode r2).map (fun cs => Char.ofNat cp :: cs)
        else none
      | _ => none
    else if b < 0xF5 then
      match r with
      | c1 :: c2 :: c3 :: r3 =>
        if (0x80 ≤ c1 ∧ c1 < 0xC0) ∧ (0x80 ≤ c2 ∧ c2 < 0xC0) ∧ (0x80 ≤ c3 ∧ c3 < 0xC0) then
          let cp := (b - 0xF0) * 262144 + (c1 - 0x80) * 4096 + (c2 - 0x80) * 64 + (c3 - 0x80)
          if cp < 0x10000 ∨ 0x110000 ≤ cp then none
          else (utf8Decode r3).map (fun cs => Char.ofNat cp :: cs)
        else none
      | _ => none
    else none

/-- One row byte built by the `'2'` branch of `TzSearch::new`: for
`x in 0..8`, bit `x` of the row is set when bit `y*8 + x` of the 64-bit
mask is set. -/
def rowByte (bits y : Nat) : Nat :=
  (List.range 8).foldl
    (fun place x => if bits &&& (1 <<< (y * 8 + x)) ≠ 0 then place ||| (1 <<< x) else place) 0

/-- The 8 row bytes built by the `'2'` branch of `TzSearch::new`. -/
def decodeRows (bits : Nat) : List Nat := (List.range 8).map (rowByte bits)

/-- Result of decoding: success, a decoding panic (`err`), or
non-termination of the decoder (`diverge`, the embedding's marker for the
`'P'` read loop spinning forever at end of stream). -/
inductive DecRes (α : Type) where
  | ok : α → DecRes α
  | err : DecRes α
  | diverge : DecRes α
deriving DecidableEq, Repr

/-- The `while i < 128` read loop of the `'P'` branch, one fuel unit per
iteration: `read(&mut buf[i..])` returns `min (128 - i) avail` bytes and
returns `0` at end of stream, so the loop exits only once `i` reaches
`128`.  `none` means the loop is still running when the fuel runs out. -/
def pLoop : Nat → Nat → Nat → Option Nat
  | 0, _, _ => none
  | fuel + 1, i, avail =>
    if i < 128 then
      let r := min (128 - i) avail
      pLoop fuel (i + r) (avail - r)
    else some i

/-- Decoding of a single leaf record in `TzSearch::new`: a tag byte then a
tag-dependent payload.  The `'P'` branch completes exactly when at least
128 bytes remain; with fewer, its read loop never terminates (`diverge`),
as `pLoop` witnesses. -/
def decodeLeaf (s : List Nat) : DecRes (Zone × List Nat) :=
  match s with
  | [] => .err
  | t :: r =>
    if t = 83 then
      match utf8Decode (stripLast0 (readUntil0 r).1) with
      | some cs => .ok (Zone.StaticZone (String.mk cs), (readUntil0 r).2)
      | none => .err
    else if t = 50 then
      match readBE 2 r with
      | none => .err
      | some (i0, r1) =>
        match readBE 2 r1 with
        | none => .err
        | some (i1, r2) =>
          match readBE 8 r2 with
          | none => .err
          | some (bits, r3) => .ok (Zone.OneBitTile i0 i1 (decodeRows bits), r3)
    else if t = 80 then
      if 128 ≤ r.length then .ok (Zone.Pixmap (r.take 128), r.drop 128) else .diverge
    else .err

/-- The leaf-decoding loop of `TzSearch::new`: `NUM_LEAVES` sequential
records. -/
def decodeLeaves : Nat → List Nat → DecRes (List Zone)
  | 0, _ => .ok []
  | c + 1, s =>
    match decodeLeaf s with
    | .ok (z, rest) =>
      match decodeLeaves c rest with
      | .ok zs => .ok (z :: zs)
      | .err => .err
      | .diverge => .diverge
    | .err => .err
    | .diverge => .diverge

/-- The child indices a decoded leaf references: a `OneBitTile` references
its two child indices, a `Pixmap` every non-sentinel entry of its 8×8
grid, a `StaticZone` nothing. -/
def refIdx : Zone → Nat → Prop
  | Zone.StaticZone _, _ => False
  | Zone.OneBitTile i0 i1 _, j => j = i0 ∨ j = i1
  | Zone.Pixmap p, j => ∃ k, k < 64 ∧ pixmapEntry p k = j ∧ j ≠ 0xFFFF

/-- Leaf `i` of the store references leaf index `j`. -/
def refRel (leaves : List Zone) (i j : Nat) : Prop :=
  ∃ z, leaves[i]? = some z ∧ refIdx z j

/-- `TzSearch::lookup` from `src/lib.rs`: assert both coordinate ranges,
convert to a pixel, clamp, then `lookup_pixel`.  A failed assertion is a
panic, modelled as `none`. -/
def TzSearch.lookup (s : TzSearch) (fuel : Nat) (lat long : ℚ) : Option LookupOutcome :=
  if (-90 ≤ lat ∧ lat ≤ 90) ∧ (-180 ≤ long ∧ long ≤ 180) then
    some (TzSearch.lookupPixel s fuel (TzSearch.pixelX long) (TzSearch.pixelY lat))
  else none

/-! ### Bitwise helper lemmas -/

/-- Masking with `7` is reduction modulo `8` (`x & 7` in the source). -/
theorem and_seven_eq_mod (x : Nat) : x &&& 7 = x % 8 := by
  simpa using Nat.and_pow_two_sub_one_eq_mod x 3

/-- The bit test `a & (1 << k) != 0` used throughout the source is
`Nat.testBit`. -/
theorem land_one_shiftLeft_ne_zero (a k : Nat) :
    (a &&& (1 <<< k) ≠ 0) ↔ a.testBit k = true := by
  rw [Nat.one_shiftLeft, Nat.and_two_pow]
  cases h : a.testBit k <;> simp [h, (Nat.two_pow_pos k).ne']

/-- A shifted value or-ed with a small value is their sum. -/
theorem shiftLeft_lor_eq_add (a b n : Nat) (hb : b < 2 ^ n) :
    (a <<< n) ||| b = a * 2 ^ n + b := by
  apply Nat.eq_of_testBit_eq
  intro j
  rw [Nat.testBit_lor, Nat.testBit_shiftLeft, mul_comm, Nat.testBit_mul_pow_two_add a hb]
  by_cases hj : j < n
  · simp [hj, Nat.not_le.mpr hj]
  · have hbj : b.testBit j = false :=
      Nat.testBit_eq_false_of_lt (lt_of_lt_of_le hb (Nat.pow_le_pow_right (by norm_num) (Nat.not_lt.mp hj)))
    simp [hj, Nat.not_lt.mp hj, hbj]

/-- Bit content of the row-building fold of the `'2'` branch: bit `j` of the
accumulated byte is set exactly when it was set in the accumulator or `j`
is a processed column whose mask bit `y*8 + j` is set. -/
theorem rowFold_testBit (bits y : Nat) (l : List Nat) (acc : Nat) (j : Nat) :
    (l.foldl
      (fun place x => if bits &&& (1 <<< (y * 8 + x)) ≠ 0 then place ||| (1 <<< x) else place)
      acc).testBit j = true ↔
    (acc.testBit j = true ∨ (j ∈ l ∧ bits.testBit (y * 8 + j) = true)) := by
  induction l generalizing acc with
  | nil => simp
  | cons x l ih =>
    rw [List.foldl_cons, ih]
    by_cases hc : bits &&& (1 <<< (y * 8 + x)) ≠ 0
    · have hb : bits.testBit (y * 8 + x) = true := (land_one_shiftLeft_ne_zero _ _).mp hc
      rw [if_pos hc]
      simp only [Nat.testBit_lor, Nat.one_shiftLeft, Nat.testBit_two_pow, Bool.or_eq_true,
        decide_eq_true_eq, List.mem_cons]
      constructor
      · rintro ((h | rfl) | ⟨hm, hj⟩)
        · exact Or.inl h
        · exact Or.inr ⟨Or.inl rfl, hb⟩
        · exact Or.inr ⟨Or.inr hm, hj⟩
      · rintro (h | ⟨(rfl | hm), hj⟩)
        · exact Or.inl (Or.inl h)
        · exact Or.inl (Or.inr rfl)
        · exact Or.inr ⟨hm, hj⟩
    · have hb : bits.testBit (y * 8 + x) = false := by
        by_contra h
        exact hc ((land_one_shiftLeft_ne_zero _ _).mpr (by simpa using h))
      rw [if_neg hc]
      simp only [List.mem_cons]
      constructor
      · rintro (h | ⟨hm, hj⟩)
        · exact Or.inl h
        · exact Or.inr ⟨Or.inr hm, hj⟩
      · rintro (h | ⟨(rfl | hm), hj⟩)
        · exact Or.inl h
        · exact absurd hj (by simp [hb])
        · exact Or.inr ⟨hm, hj⟩

/-- Bit `j < 8` of row byte `y` equals bit `y*8 + j` of the 64-bit mask. -/
theorem rowByte_testBit (bits y j : Nat) :
    (rowByte bits y).testBit j = true ↔ (j < 8 ∧ bits.testBit (y * 8 + j) = true) := by
  unfold rowByte
  rw [rowFold_testBit]
  simp [Nat.zero_testBit]

/-- `decodeRows` indexed at a row below 8 gives that row byte. -/
theorem decodeRows_getD (bits r : Nat) (hr : r < 8) :
    (decodeRows bits).getD r 0 = rowByte bits r := by
  unfold decodeRows
  rw [List.getD_eq_getElem?_getD, List.getElem?_map, List.getElem?_range hr]
  rfl

/-- The selection test of the `OneBitTile` branch of `TzSearch::zone_lookup`
on decoded rows equals the row-major bit of the original 64-bit mask. -/
theorem oneBit_select_iff (bits x y : Nat) :
    ((decodeRows bits).getD (y &&& 7) 0 &&& (1 <<< (x &&& 7)) ≠ 0) ↔
    bits.testBit ((y % 8) * 8 + (x % 8)) = true := by
  rw [and_seven_eq_mod y, and_seven_eq_mod x,
    decodeRows_getD bits (y % 8) (Nat.mod_lt y (by norm_num)),
    land_one_shiftLeft_ne_zero, rowByte_testBit]
  exact ⟨fun h => h.2, fun h => ⟨Nat.mod_lt x (by norm_num), h⟩⟩

/-- Arithmetic form of the packed tile key. -/
theorem TileKey.new_eq_add (size x y : Nat) :
    TileKey.new size x y =
      (size % 8) * 2 ^ 28 + (y % 2 ^ 14) * 2 ^ 14 + (x % 2 ^ 14) := by
  unfold TileKey.new
  have h14 : (1 <<< 14 : Nat) = 2 ^ 14 := by norm_num [Nat.one_shiftLeft]
  rw [h14, Nat.lor_assoc]
  have hx : x % 2 ^ 14 < 2 ^ 14 := Nat.mod_lt x (by norm_num)
  have hy : y % 2 ^ 14 < 2 ^ 14 := Nat.mod_lt y (by norm_num)
  have hinner : ((y % 2 ^ 14) <<< 14) ||| (x % 2 ^ 14) =
      (y % 2 ^ 14) * 2 ^ 14 + (x % 2 ^ 14) := shiftLeft_lor_eq_add _ _ 14 hx
  have hb : (y % 2 ^ 14) * 2 ^ 14 + (x % 2 ^ 14) < 2 ^ 28 := by
    have e1 : (2 : Nat) ^ 14 = 16384 := by norm_num
    have e2 : (2 : Nat) ^ 28 = 268435456 := by norm_num
    rw [e1] at hx hy ⊢
    rw [e2]
    omega
  rw [hinner, shiftLeft_lor_eq_add _ _ 28 hb]
  ring

/-- The packed tile key fits in 32 bits and its three fields can be
recovered by shifting and masking. -/
theorem TileKey.new_fields (size x y : Nat) :
    TileKey.new size x y < 2 ^ 32 ∧
    (TileKey.new size x y) >>> 28 = size % 8 ∧
    ((TileKey.new size x y) >>> 14) % 2 ^ 14 = y % 2 ^ 14 ∧
    (TileKey.new size x y) % 2 ^ 14 = x % 2 ^ 14 := by
  simp only [TileKey.new_eq_add, Nat.shiftRight_eq_div_pow]
  omega

/-- When every key of the interval is below the target, the lower-bound
search returns the upper limit. -/
theorem lbGo_all_lt (keys : List Nat) (tk : Nat) :
    ∀ fuel lo hi, hi - lo ≤ fuel → lo ≤ hi →
      (∀ m, lo ≤ m → m < hi → keys.getD m 0 < tk) →
      lbGo keys tk fuel lo hi = hi := by
  intro fuel
  induction fuel with
  | zero =>
    intro lo hi hf hle _
    have : lo = hi := by omega
    simpa [lbGo] using this
  | succ fuel ih =>
    intro lo hi hf hle hall
    by_cases hlt : lo < hi
    · have hmid1 : lo ≤ (lo + hi) / 2 := by omega
      have hmid2 : (lo + hi) / 2 < hi := by omega
      rw [lbGo, if_pos hlt, if_pos (hall _ hmid1 hmid2)]
      exact ih ((lo + hi) / 2 + 1) hi (by omega) (by omega)
        (fun m hm1 hm2 => hall m (by omega) hm2)
    · rw [lbGo, if_neg hlt]
      omega

/-- On a strictly sorted key list, the lower-bound search over an interval
containing an exact match lands on the match position. -/
theorem lbGo_found (keys : List Nat) (tk : Nat)
    (hmono : ∀ i j, i < j → j < keys.length → keys.getD i 0 < keys.getD j 0) :
    ∀ fuel lo hi m, hi - lo ≤ fuel → hi ≤ keys.length → lo ≤ m → m < hi →
      keys.getD m 0 = tk → lbGo keys tk fuel lo hi = m := by
  intro fuel
  induction fuel with
  | zero => intro lo hi m hf _ h1 h2 _; omega
  | succ fuel ih =>
    intro lo hi m hf hhi h1 h2 hm
    have hlt : lo < hi := by omega
    rw [lbGo, if_pos hlt]
    have hmid1 : lo ≤ (lo + hi) / 2 := by omega
    have hmid2 : (lo + hi) / 2 < hi := by omega
    by_cases hc : keys.getD ((lo + hi) / 2) 0 < tk
    · rw [if_pos hc]
      have hgt : (lo + hi) / 2 < m := by
        rcases Nat.lt_trichotomy m ((lo + hi) / 2) with h | h | h
        · have := hmono m ((lo + hi) / 2) h (by omega)
          omega
        · rw [h] at hm
          omega
        · exact h
      exact ih ((lo + hi) / 2 + 1) hi m (by omega) hhi (by omega) h2 hm
    · rw [if_neg hc]
      have hle : m ≤ (lo + hi) / 2 := by
        by_contra h
        have := hmono ((lo + hi) / 2) m (by omega) (by omega)
        omega
      rcases Nat.eq_or_lt_of_le hle with h | h
      · rw [← h]
        exact lbGo_all_lt keys tk fuel lo m (by omega) (by omega)
          (fun i hi1 hi2 => by have := hmono i m hi2 (by omega); omega)
      · exact ih lo ((lo + hi) / 2) m (by omega) (by omega) h1 h hm

/-- On a strictly sorted key list, `lowerBound` finds the position of an
exact match. -/
theorem lowerBound_found (keys : List Nat) (tk m : Nat)
    (hmono : ∀ i j, i < j → j < keys.length → keys.getD i 0 < keys.getD j 0)
    (hm : m < keys.length) (hkey : keys.getD m 0 = tk) :
    lowerBound keys tk = m :=
  lbGo_found keys tk hmono keys.length 0 keys.length m (by omega) le_rfl (by omega) hm hkey

/-- A pairwise strictly increasing tile list gives a strictly monotone key
access function. -/
theorem pairwise_tile_mono (zl : ZoomLevel)
    (hp : List.Pairwise (fun a b => a.tile < b.tile) zl) :
    ∀ i j, i < j → j < (zl.map TileLooker.tile).length →
      (zl.map TileLooker.tile).getD i 0 < (zl.map TileLooker.tile).getD j 0 := by
  intro i j hij hj
  rw [List.length_map] at hj
  have hi : i < zl.length := lt_trans hij hj
  rw [List.getD_eq_getElem?_getD, List.getD_eq_getElem?_getD, List.getElem?_map,
    List.getElem?_map, List.getElem?_eq_getElem hi, List.getElem?_eq_getElem hj]
  exact List.pairwise_iff_getElem.mp hp i j hi hj hij

/-- An entry of a strictly sorted level whose key matches the query is found
by `zoom_level_lookup`, which resolves its leaf. -/
theorem zoomLevelLookup_match (leaves : List Zone) (zl : ZoomLevel) (fuel x y : Nat)
    (tk : TileKey) (tl : TileLooker)
    (hp : List.Pairwise (fun a b => a.tile < b.tile) zl)
    (hmem : tl ∈ zl) (hkey : tl.tile = tk) :
    TzSearch.zoomLevelLookup leaves zl fuel x y tk =
      some (TzSearch.zoneLookup leaves x y fuel tl.idx) := by
  obtain ⟨m, hm⟩ := List.mem_iff_getElem?.mp hmem
  have hmlen : m < zl.length := by
    by_contra h
    rw [List.getElem?_eq_none (by omega)] at hm
    cases hm
  have hkeym : (zl.map TileLooker.tile).getD m 0 = tk := by
    rw [List.getD_eq_getElem?_getD, List.getElem?_map, hm]
    simpa using hkey
  have hpos : lowerBound (zl.map TileLooker.tile) tk = m :=
    lowerBound_found _ tk m (pairwise_tile_mono zl hp) (by simpa using hmlen) hkeym
  unfold TzSearch.zoomLevelLookup
  rw [hpos]
  simp only [hm, hkey, if_pos]

/-- When no entry of the level matches the query key, `zoom_level_lookup`
reports absence (`none`), regardless of sortedness. -/
theorem zoomLevelLookup_miss (leaves : List Zone) (zl : ZoomLevel) (fuel x y : Nat)
    (tk : TileKey) (hno : ∀ tl ∈ zl, tl.tile ≠ tk) :
    TzSearch.zoomLevelLookup leaves zl fuel x y tk = none := by
  unfold TzSearch.zoomLevelLookup
  cases hq : zl[lowerBound (zl.map TileLooker.tile) tk]? with
  | none => simp [hq]
  | some tl =>
    have : tl ∈ zl := List.mem_iff_getElem?.mpr ⟨_, hq⟩
    simp [hq, hno tl this]

/-- If no level in the remaining scan list has a matching entry, the scan
falls through to `None`. -/
theorem lookupPixelGo_none (s : TzSearch) (fuel x y : Nat) (L : List Nat)
    (h : ∀ l ∈ L, ∀ tl ∈ s.zoom_levels.getD l [], tl.tile ≠ levelKey l x y) :
    TzSearch.lookupPixelGo s fuel x y L = .result none := by
  induction L with
  | nil => rfl
  | cons l rest ih =>
    rw [TzSearch.lookupPixelGo,
      zoomLevelLookup_miss s.leaves _ fuel x y _ (h l (List.mem_cons_self l rest))]
    exact ih fun l' hl' => h l' (List.mem_cons_of_mem l hl')

/-- A fuel-exhausted `zone_lookup` call took a reference step to a child
whose own call is also fuel-exhausted. -/
theorem zoneLookup_fuelOut_step (leaves : List Zone) (x y : Nat) (f i : Nat)
    (h : TzSearch.zoneLookup leaves x y (f + 1) i = .fuelOut) :
    ∃ j, refRel leaves i j ∧ TzSearch.zoneLookup leaves x y f j = .fuelOut := by
  rw [TzSearch.zoneLookup] at h
  cases hz : leaves[i]? with
  | none => rw [hz] at h; cases h
  | some z =>
    rw [hz] at h
    cases z with
    | StaticZone s => cases h
    | OneBitTile i0 i1 rows =>
      simp only at h
      refine ⟨_, ⟨_, hz, ?_⟩, h⟩
      by_cases hc : rows.getD (y &&& 7) 0 &&& (1 <<< (x &&& 7)) ≠ 0
      · rw [if_pos hc]; exact Or.inr rfl
      · rw [if_neg hc]; exact Or.inl rfl
    | Pixmap p =>
      simp only at h
      by_cases hs : pixmapEntry p ((y &&& 7) * 8 + (x &&& 7)) = 0xFFFF
      · rw [if_pos hs] at h; cases h
      · rw [if_neg hs] at h
        refine ⟨_, ⟨_, hz, ⟨(y &&& 7) * 8 + (x &&& 7), ?_, rfl, hs⟩⟩, h⟩
        have hy := and_seven_eq_mod y
        have hx := and_seven_eq_mod x
        have : y % 8 < 8 := Nat.mod_lt y (by norm_num)
        have : x % 8 < 8 := Nat.mod_lt x (by norm_num)
        omega

/-- A fuel-exhausted `zone_lookup` call of fuel `f` yields a reference chain
of `f` steps starting at the queried leaf index. -/
theorem zoneLookup_fuelOut_chain (leaves : List Zone) (x y : Nat) :
    ∀ f i, TzSearch.zoneLookup leaves x y f i = .fuelOut →
      ∃ p : Nat → Nat, p 0 = i ∧ ∀ k, k < f → refRel leaves (p k) (p (k + 1)) := by
  intro f
  induction f with
  | zero =>
    intro i _
    exact ⟨fun _ => i, rfl, fun k hk => absurd hk (by omega)⟩
  | succ f ih =>
    intro i h
    obtain ⟨j, hstep, hrec⟩ := zoneLookup_fuelOut_step leaves x y f i h
    obtain ⟨p, hp0, hpchain⟩ := ih j hrec
    refine ⟨fun k => match k with | 0 => i | k + 1 => p k, rfl, ?_⟩
    intro k hk
    match k with
    | 0 => simpa [hp0] using hstep
    | k + 1 => exact hpchain k (by omega)

/-- Reference steps from a chain segment compose to a transitive path. -/
theorem chain_transGen (R : Nat → Nat → Prop) (p : Nat → Nat) (m : Nat)
    (h : ∀ k, k < m → R (p k) (p (k + 1))) :
    ∀ a b, a < b → b ≤ m → Relation.TransGen R (p a) (p b) := by
  intro a b
  induction b with
  | zero => omega
  | succ b ih =>
    intro hab hbm
    rcases Nat.lt_or_ge a b with hab' | hab'
    · exact Relation.TransGen.tail (ih hab' (by omega)) (h b (by omega))
    · have : a = b := by omega
      rw [this]
      exact Relation.TransGen.single (h b (by omega))

/-- With valid references, `zone_lookup` never indexes out of bounds. -/
theorem zoneLookup_no_panic (leaves : List Zone) (x y : Nat)
    (hvalid : ∀ i j, refRel leaves i j → j < leaves.length) :
    ∀ f i, i < leaves.length → TzSearch.zoneLookup leaves x y f i ≠ .panic := by
  intro f
  induction f with
  | zero => intro i _ h; cases h
  | succ f ih =>
    intro i hi h
    rw [TzSearch.zoneLookup] at h
    rw [List.getElem?_eq_getElem hi] at h
    cases hz : leaves[i] with
    | StaticZone s => rw [hz] at h; cases h
    | OneBitTile i0 i1 rows =>
      rw [hz] at h
      simp only at h
      set j := if rows.getD (y &&& 7) 0 &&& (1 <<< (x &&& 7)) ≠ 0 then i1 else i0 with hj
      have hrel : refRel leaves i j := by
        refine ⟨Zone.OneBitTile i0 i1 rows, by rw [List.getElem?_eq_getElem hi, hz], ?_⟩
        rw [hj]
        by_cases hc : rows.getD (y &&& 7) 0 &&& (1 <<< (x &&& 7)) ≠ 0
        · rw [if_pos hc]; exact Or.inr rfl
        · rw [if_neg hc]; exact Or.inl rfl
      exact ih j (hvalid i j hrel) h
    | Pixmap p =>
      rw [hz] at h
      simp only at h
      by_cases hs : pixmapEntry p ((y &&& 7) * 8 + (x &&& 7)) = 0xFFFF
      · rw [if_pos hs] at h; cases h
      · rw [if_neg hs] at h
        have hrel : refRel leaves i (pixmapEntry p ((y &&& 7) * 8 + (x &&& 7))) := by
          refine ⟨Zone.Pixmap p, by rw [List.getElem?_eq_getElem hi, hz],
            ⟨(y &&& 7) * 8 + (x &&& 7), ?_, rfl, hs⟩⟩
          have hy := and_seven_eq_mod y
          have hx := and_seven_eq_mod x
          have : y % 8 < 8 := Nat.mod_lt y (by norm_num)
          have : x % 8 < 8 := Nat.mod_lt x (by norm_num)
          omega
        exact ih _ (hvalid i _ hrel) h

/-- Main termination lemma: with valid references and no reference cycle,
`zone_lookup` started at a valid index with fuel equal to the number of
leaves neither runs out of fuel nor panics: it reaches a result. -/
theorem zoneLookup_terminates (leaves : List Zone) (x y i : Nat)
    (hvalid : ∀ a b, refRel leaves a b → b < leaves.length)
    (hacyc : ∀ j, ¬ Relation.TransGen (refRel leaves) j j)
    (hi : i < leaves.length) :
    ∃ r : Option String,
      TzSearch.zoneLookup leaves x y leaves.length i = .result r := by
  cases hres : TzSearch.zoneLookup leaves x y leaves.length i with
  | result r => exact ⟨r, rfl⟩
  | panic => exact absurd hres (zoneLookup_no_panic leaves x y hvalid leaves.length i hi)
  | fuelOut =>
    exfalso
    obtain ⟨p, hp0, hchain⟩ := zoneLookup_fuelOut_chain leaves x y leaves.length i hres
    set n := leaves.length with hn
    have hbound : ∀ k, k ≤ n → p k < n := by
      intro k
      induction k with
      | zero => intro _; rw [hp0]; exact hi
      | succ k ih =>
        intro hk
        exact hvalid (p k) (p (k + 1)) (hchain k (by omega))
    have hmaps : ∀ a ∈ Finset.range (n + 1), p a ∈ Finset.range n := by
      intro a ha
      rw [Finset.mem_range] at ha ⊢
      exact hbound a (by omega)
    have hcard : (Finset.range n).card < (Finset.range (n + 1)).card := by
      simp
    obtain ⟨a, ha, b, hb, hne, heq⟩ :=
      Finset.exists_ne_map_eq_of_card_lt_of_maps_to hcard hmaps
    rw [Finset.mem_range] at ha hb
    rcases Nat.lt_or_ge a b with hab | hab
    · have := chain_transGen (refRel leaves) p n hchain a b hab (by omega)
      rw [heq] at this
      exact hacyc (p b) this
    · have hba : b < a := by omega
      have := chain_transGen (refRel leaves) p n hchain b a hba (by omega)
      rw [← heq] at this
      exact hacyc (p a) this

/-- The record-parsing loop succeeds on any buffer of exactly `6 * c`
bytes. -/
theorem parseTiles_success : ∀ c (bs : List Nat), bs.length = 6 * c →
    ∃ ts, parseTiles c bs = some ts := by
  intro c
  induction c with
  | zero => intro bs _; exact ⟨[], rfl⟩
  | succ c ih =>
    intro bs hlen
    have h4 : 4 ≤ bs.length := by omega
    have h2 : 2 ≤ (bs.drop 4).length := by rw [List.length_drop]; omega
    have hlen' : ((bs.drop 4).drop 2).length = 6 * c := by
      rw [List.length_drop, List.length_drop]; omega
    obtain ⟨ts, hts⟩ := ih ((bs.drop 4).drop 2) hlen'
    refine ⟨⟨beVal (bs.take 4), beVal ((bs.drop 4).take 2)⟩ :: ts, ?_⟩
    rw [parseTiles, readBE, if_pos h4]
    simp only [Option.bind_eq_bind, Option.some_bind]
    rw [readBE, if_pos h2]
    simp only [Option.some_bind]
    rw [hts]
    rfl

/-- A zoom-level buffer fails to decode exactly when its length is not a
multiple of 6. -/
theorem decodeZoomTable_none_iff (bs : List Nat) :
    decodeZoomTable bs = none ↔ bs.length % 6 ≠ 0 := by
  constructor
  · intro h hmod
    obtain ⟨ts, hts⟩ := parseTiles_success (bs.length / 6) bs (by omega)
    rw [decodeZoomTable, if_pos hmod, hts] at h
    cases h
  · intro hmod
    rw [decodeZoomTable, if_neg hmod]

/-- The `'P'` read loop never terminates when fewer than 128 bytes can ever
be delivered: after the stream is exhausted every `read` returns 0 and the
state stops changing, for any amount of fuel. -/
theorem pLoop_stuck : ∀ fuel i avail, i + avail < 128 → pLoop fuel i avail = none := by
  intro fuel
  induction fuel with
  | zero => intro i avail _; rfl
  | succ fuel ih =>
    intro i avail h
    rw [pLoop, if_pos (by omega)]
    exact ih _ _ (by omega)

/-- The `'P'` read loop completes in two iterations when at least 128 bytes
are available. -/
theorem pLoop_completes (avail : Nat) (h : 128 ≤ avail) :
    pLoop 2 0 avail = some 128 := by
  rw [pLoop, if_pos (by omega)]
  have h1 : min (128 - 0) avail = 128 := by omega
  rw [h1, pLoop, if_neg (by omega)]

/-- `read_until` with no delimiter in the stream consumes everything. -/
theorem readUntil0_no_zero (r : List Nat) (h : 0 ∉ r) : readUntil0 r = (r, []) := by
  induction r with
  | nil => rfl
  | cons b rest ih =>
    have hb : b ≠ 0 := fun hb => h (hb ▸ List.mem_cons_self b rest)
    have := ih (fun hm => h (List.mem_cons_of_mem b hm))
    rw [readUntil0, if_neg hb, this]

/-- Without a trailing `0` nothing is stripped. -/
theorem stripLast0_no_zero (r : List Nat) (h : 0 ∉ r) : stripLast0 r = r := by
  rw [stripLast0, if_neg]
  intro hlast
  obtain ⟨hne, heq⟩ := List.mem_getLast?_eq_getLast (Option.mem_def.mpr hlast)
  exact h (heq ▸ List.getLast_mem hne)

/-- A level scan steps over a level with no matching entry. -/
theorem lookupPixelGo_cons_miss (s : TzSearch) (fuel x y l : Nat) (rest : List Nat)
    (h : ∀ tl ∈ s.zoom_levels.getD l [], tl.tile ≠ levelKey l x y) :
    TzSearch.lookupPixelGo s fuel x y (l :: rest) = TzSearch.lookupPixelGo s fuel x y rest := by
  rw [TzSearch.lookupPixelGo, zoomLevelLookup_miss s.leaves _ fuel x y _ h]

/-- A level scan commits at the first level holding a matching entry. -/
theorem lookupPixelGo_cons_match (s : TzSearch) (fuel x y l : Nat) (rest : List Nat)
    (tl : TileLooker)
    (hp : List.Pairwise (fun a b => a.tile < b.tile) (s.zoom_levels.getD l []))
    (hmem : tl ∈ s.zoom_levels.getD l []) (hkey : tl.tile = levelKey l x y) :
    TzSearch.lookupPixelGo s fuel x y (l :: rest) =
      TzSearch.zoneLookup s.leaves x y fuel tl.idx := by
  rw [TzSearch.lookupPixelGo,
    zoomLevelLookup_match s.leaves _ fuel x y _ tl hp hmem hkey]

/-! ### Claim theorems -/

/-- C1 (amended).  The clamped pixel coordinates always lie in the closed
intervals `[0, 360*DEG_PIXELS]` and `[0, 180*DEG_PIXELS]` (the clamp's
upper bound is `lim * DEG_PIXELS` inclusive, not exclusive), and the
boundary inputs map to: `lat=90 ↦ y=0`, `lon=-180 ↦ x=0`,
`lat=-90 ↦ y=180*DEG_PIXELS = 5760`, `lon=180 ↦ x=360*DEG_PIXELS = 11520`
— the last two one past the last valid pixel row/column.  No out-of-bounds
access results, because the pixel lookup never indexes an array by the
pixel coordinate. -/
theorem claim_C1 :
    (∀ long : ℚ, TzSearch.pixelX long ≤ 360 * tables.DEG_PIXELS) ∧
    (∀ lat : ℚ, TzSearch.pixelY lat ≤ 180 * tables.DEG_PIXELS) ∧
    TzSearch.pixelY 90 = 0 ∧
    TzSearch.pixelX (-180) = 0 ∧
    TzSearch.pixelY (-90) = 180 * tables.DEG_PIXELS ∧
    TzSearch.pixelX 180 = 360 * tables.DEG_PIXELS := by
  refine ⟨fun long => ?_, fun lat => ?_, ?_, ?_, ?_, ?_⟩
  · unfold TzSearch.pixelX TzSearch.clamp tables.DEG_PIXELS
    omega
  · unfold TzSearch.pixelY TzSearch.clamp tables.DEG_PIXELS
    omega
  · unfold TzSearch.pixelY TzSearch.rawY TzSearch.clamp tables.DEG_PIXELS
    norm_num
  · unfold TzSearch.pixelX TzSearch.rawX TzSearch.clamp tables.DEG_PIXELS
    norm_num
  · unfold TzSearch.pixelY TzSearch.rawY TzSearch.clamp tables.DEG_PIXELS
    norm_num
    decide
  · unfold TzSearch.pixelX TzSearch.rawX TzSearch.clamp tables.DEG_PIXELS
    norm_num
    decide

/-- C1 counterexample.  The claim asserts the clamped `x` for `lon = 180`
lies in `[0, 360*DEG_PIXELS)` (hence `x ≤ 11519`); in fact the clamp is
inclusive and yields `x = 11520`. -/
theorem claim_C1_counterexample :
    TzSearch.pixelX 180 = 11520 ∧ ¬ TzSearch.pixelX 180 < 360 * tables.DEG_PIXELS := by
  have h : TzSearch.pixelX 180 = 11520 := by
    unfold TzSearch.pixelX TzSearch.rawX TzSearch.clamp tables.DEG_PIXELS
    norm_num
    decide
  refine ⟨h, ?_⟩
  rw [h]
  unfold tables.DEG_PIXELS
  omega

/-- C2 (amended).  Table decoding aborts construction on: a zoom-level
buffer whose length is not a multiple of 6 (and only then), an unknown
leaf tag, a truncated stream at a tag byte, a truncated `'2'` record, and
invalid UTF-8 in a name.  However, a truncated `'P'` record does not abort:
its read loop never terminates (for any amount of fuel the loop is still
running), and referenced leaf indices are not validated at load time:
a table whose record references an out-of-range leaf index decodes
successfully. -/
theorem claim_C2 :
    (∀ bs : List Nat, decodeZoomTable bs = none ↔ bs.length % 6 ≠ 0) ∧
    (∀ (t : Nat) (r : List Nat), t ≠ 83 → t ≠ 50 → t ≠ 80 →
      decodeLeaf (t :: r) = .err) ∧
    (∀ n : Nat, decodeLeaves (n + 1) [] = .err) ∧
    (∀ r : List Nat, r.length < 12 → decodeLeaf (50 :: r) = .err) ∧
    (∀ r : List Nat, utf8Decode (stripLast0 (readUntil0 r).1) = none →
      decodeLeaf (83 :: r) = .err) ∧
    (∀ r : List Nat, r.length < 128 →
      decodeLeaf (80 :: r) = .diverge ∧ ∀ fuel, pLoop fuel 0 r.length = none) ∧
    (∃ (bs : List Nat) (ts : List TileLooker),
      decodeZoomTable bs = some ts ∧ ∃ tl ∈ ts, tables.NUM_LEAVES ≤ tl.idx) := by
  refine ⟨decodeZoomTable_none_iff, ?_, ?_, ?_, ?_, ?_, ?_⟩
  · intro t r h1 h2 h3
    rw [decodeLeaf]
    rw [if_neg h1, if_neg h2, if_neg h3]
  · intro n
    rfl
  · intro r hlen
    rw [decodeLeaf]
    rw [if_neg (by norm_num), if_pos rfl]
    by_cases h1 : 2 ≤ r.length
    · have e1 : readBE 2 r = some (beVal (r.take 2), r.drop 2) := by
        rw [readBE, if_pos h1]
      simp only [e1]
      by_cases h2 : 2 ≤ (r.drop 2).length
      · have e2 : readBE 2 (r.drop 2) = some (beVal ((r.drop 2).take 2), (r.drop 2).drop 2) := by
          rw [readBE, if_pos h2]
        have e3 : readBE 8 ((r.drop 2).drop 2) = none := by
          rw [readBE, if_neg]
          rw [List.length_drop, List.length_drop]
          omega
        simp only [e2, e3]
      · have e2 : readBE 2 (r.drop 2) = none := by rw [readBE, if_neg h2]
        simp only [e2]
    · have e1 : readBE 2 r = none := by rw [readBE, if_neg h1]
      simp only [e1]
  · intro r h
    rw [decodeLeaf, if_pos rfl, h]
  · intro r hlen
    refine ⟨?_, fun fuel => pLoop_stuck fuel 0 r.length (by omega)⟩
    rw [decodeLeaf]
    rw [if_neg (by norm_num), if_neg (by norm_num), if_pos rfl, if_neg (by omega)]
  · refine ⟨[0, 0, 0, 0, 255, 255], [⟨0, 65535⟩], by rfl, ⟨0, 65535⟩, ?_, ?_⟩
    · exact List.mem_singleton_self _
    · decide

/-- C2 counterexample.  A six-byte zoom-level buffer whose single record
references leaf index 65535 (far beyond `NUM_LEAVES = 14356`) is malformed
in the claim's sense, yet the decoder accepts it: construction is not
aborted on out-of-range leaf references. -/
theorem claim_C2_counterexample :
    decodeZoomTable [0, 0, 0, 0, 255, 255] = some [⟨0, 65535⟩] ∧
    tables.NUM_LEAVES ≤ 65535 := by
  exact ⟨by rfl, by decide⟩

/-- C2 witness: a `'P'` record followed by an empty stream makes the
decoder diverge rather than abort. -/
theorem claim_C2_witness : decodeLeaf [80] = DecRes.diverge :=
  (claim_C2.2.2.2.2.2.1 [] (by norm_num)).1

/-- C3 (confirmed).  If the finest matching level `L` (scanned 5 down to 0)
holds an entry whose key equals the packed query key — all finer levels
having no match, this level's table being sorted with distinct keys —
then `lookup_pixel` returns the result of resolving that entry's leaf
immediately, whatever that result is (in particular a resolved 'no
timezone' from an ocean tile is returned as is, shadowing coarser
levels). -/
theorem claim_C3 (s : TzSearch) (fuel x y L : Nat) (tl : TileLooker)
    (hL : L < 6)
    (hfiner : ∀ L', L < L' → L' < 6 →
      ∀ tl' ∈ s.zoom_levels.getD L' [], tl'.tile ≠ levelKey L' x y)
    (hp : List.Pairwise (fun a b => a.tile < b.tile) (s.zoom_levels.getD L []))
    (hmem : tl ∈ s.zoom_levels.getD L [])
    (hkey : tl.tile = levelKey L x y) :
    TzSearch.lookupPixel s fuel x y = TzSearch.zoneLookup s.leaves x y fuel tl.idx := by
  rw [TzSearch.lookupPixel]
  interval_cases L
  · rw [lookupPixelGo_cons_miss s fuel x y 5 _ (hfiner 5 (by omega) (by omega)),
      lookupPixelGo_cons_miss s fuel x y 4 _ (hfiner 4 (by omega) (by omega)),
      lookupPixelGo_cons_miss s fuel x y 3 _ (hfiner 3 (by omega) (by omega)),
      lookupPixelGo_cons_miss s fuel x y 2 _ (hfiner 2 (by omega) (by omega)),
      lookupPixelGo_cons_miss s fuel x y 1 _ (hfiner 1 (by omega) (by omega)),
      lookupPixelGo_cons_match s fuel x y 0 _ tl hp hmem hkey]
  · rw [lookupPixelGo_cons_miss s fuel x y 5 _ (hfiner 5 (by omega) (by omega)),
      lookupPixelGo_cons_miss s fuel x y 4 _ (hfiner 4 (by omega) (by omega)),
      lookupPixelGo_cons_miss s fuel x y 3 _ (hfiner 3 (by omega) (by omega)),
      lookupPixelGo_cons_miss s fuel x y 2 _ (hfiner 2 (by omega) (by omega)),
      lookupPixelGo_cons_match s fuel x y 1 _ tl hp hmem hkey]
  · rw [lookupPixelGo_cons_miss s fuel x y 5 _ (hfiner 5 (by omega) (by omega)),
      lookupPixelGo_cons_miss s fuel x y 4 _ (hfiner 4 (by omega) (by omega)),
      lookupPixelGo_cons_miss s fuel x y 3 _ (hfiner 3 (by omega) (by omega)),
      lookupPixelGo_cons_match s fuel x y 2 _ tl hp hmem hkey]
  · rw [lookupPixelGo_cons_miss s fuel x y 5 _ (hfiner 5 (by omega) (by omega)),
      lookupPixelGo_cons_miss s fuel x y 4 _ (hfiner 4 (by omega) (by omega)),
      lookupPixelGo_cons_match s fuel x y 3 _ tl hp hmem hkey]
  · rw [lookupPixelGo_cons_miss s fuel x y 5 _ (hfiner 5 (by omega) (by omega)),
      lookupPixelGo_cons_match s fuel x y 4 _ tl hp hmem hkey]
  · rw [lookupPixelGo_cons_match s fuel x y 5 _ tl hp hmem hkey]

/-- C3 witness: a finest-level (level 5) match resolving to an all-ocean
`Pixmap` returns 'no timezone' even though level 0 holds a `StaticZone`
entry for the same point. -/
theorem claim_C3_witness :
    TzSearch.lookupPixel
      ⟨[Zone.StaticZone "A", Zone.Pixmap (List.replicate 128 255)],
        [[⟨levelKey 0 0 0, 0⟩], [], [], [], [], [⟨levelKey 5 0 0, 1⟩]]⟩ 1 0 0 =
      TzSearch.zoneLookup
        [Zone.StaticZone "A", Zone.Pixmap (List.replicate 128 255)] 0 0 1 1 ∧
    TzSearch.zoneLookup
      [Zone.StaticZone "A", Zone.Pixmap (List.replicate 128 255)] 0 0 1 1 =
      LookupOutcome.result none := by
  constructor
  · exact claim_C3
      ⟨[Zone.StaticZone "A", Zone.Pixmap (List.replicate 128 255)],
        [[⟨levelKey 0 0 0, 0⟩], [], [], [], [], [⟨levelKey 5 0 0, 1⟩]]⟩
      1 0 0 5 ⟨levelKey 5 0 0, 1⟩ (by omega)
      (fun L' h1 h2 => absurd (lt_trans h1 h2) (by omega))
      (by decide) (by decide) rfl
  · decide

/-- C4 (confirmed).  On a sorted level, `zoom_level_lookup` resolves a leaf
exactly when some entry's key equals the packed query key (the lower-bound
search is followed by an equality check, so an insertion point without a
match resolves nothing); and when every level 5..0 lacks a match,
`lookup_pixel` answers 'no timezone'. -/
theorem claim_C4 :
    (∀ (leaves : List Zone) (zl : ZoomLevel) (fuel x y : Nat) (tk : TileKey),
      List.Pairwise (fun a b => a.tile < b.tile) zl →
      ((TzSearch.zoomLevelLookup leaves zl fuel x y tk).isSome ↔
        ∃ tl ∈ zl, tl.tile = tk)) ∧
    (∀ (s : TzSearch) (fuel x y : Nat),
      (∀ level, level < 6 →
        ∀ tl ∈ s.zoom_levels.getD level [], tl.tile ≠ levelKey level x y) →
      TzSearch.lookupPixel s fuel x y = .result none) := by
  constructor
  · intro leaves zl fuel x y tk hp
    constructor
    · intro hsome
      by_contra hno
      push_neg at hno
      rw [zoomLevelLookup_miss leaves zl fuel x y tk hno] at hsome
      cases hsome
    · rintro ⟨tl, hmem, hkey⟩
      rw [zoomLevelLookup_match leaves zl fuel x y tk tl hp hmem hkey]
      rfl
  · intro s fuel x y h
    apply lookupPixelGo_none
    intro l hl
    apply h l
    simp only [List.mem_cons, List.not_mem_nil, or_false] at hl
    rcases hl with rfl | rfl | rfl | rfl | rfl | rfl <;> omega

/-- C4 witness: a singleton level whose sole entry's key equals the query
key resolves a leaf. -/
theorem claim_C4_witness :
    (TzSearch.zoomLevelLookup [] [⟨7, 3⟩] 1 0 0 7).isSome = true :=
  (claim_C4.1 [] [⟨7, 3⟩] 1 0 0 7 (by decide)).mpr ⟨⟨7, 3⟩, by decide, rfl⟩

/-- C5 (confirmed).  For a leaf decoded from a `'2'` record with 64-bit
mask `bits`, `zone_lookup` selects the second child exactly when bit
`(y&7)*8 + (x&7)` of `bits` is set (row-major, `bit = y*8+x`), the first
child otherwise, and recurses into that child with the same pixel: the
row-major ordering survives the per-row byte decoding end-to-end. -/
theorem claim_C5 (leaves : List Zone) (x y fuel bits i0 i1 i : Nat)
    (hbits : bits < 2 ^ 64)
    (hleaf : leaves[i]? = some (Zone.OneBitTile i0 i1 (decodeRows bits))) :
    TzSearch.zoneLookup leaves x y (fuel + 1) i =
      TzSearch.zoneLookup leaves x y fuel
        (if bits.testBit ((y % 8) * 8 + (x % 8)) then i1 else i0) := by
  rw [TzSearch.zoneLookup, hleaf]
  simp only
  congr 1
  rw [if_congr (oneBit_select_iff bits x y) rfl rfl]

/-- C5 witness: with mask `1` (bit 0 set) the pixel `(0,0)` selects the
second child, here leaf 2 holding `"b"`. -/
theorem claim_C5_witness :
    TzSearch.zoneLookup
      [Zone.OneBitTile 1 2 (decodeRows 1), Zone.StaticZone "a", Zone.StaticZone "b"]
      0 0 2 0 =
    TzSearch.zoneLookup
      [Zone.OneBitTile 1 2 (decodeRows 1), Zone.StaticZone "a", Zone.StaticZone "b"]
      0 0 1 2 :=
  claim_C5 [Zone.OneBitTile 1 2 (decodeRows 1), Zone.StaticZone "a", Zone.StaticZone "b"]
    0 0 1 1 1 2 0 (by norm_num) rfl

/-- C6 (confirmed).  For a `Pixmap` leaf, `zone_lookup` reads the
big-endian `u16` at row-major grid position `(y&7)*8 + (x&7)` (byte offset
twice that): the value `0xFFFF` yields the definitive 'no timezone' answer
regardless of every other byte and of the leaf store, and any other value
is recursed into as a leaf index with the same pixel. -/
theorem claim_C6 (leaves : List Zone) (p : List Nat) (x y fuel i : Nat)
    (hleaf : leaves[i]? = some (Zone.Pixmap p)) :
    ((256 * p.getD (2 * ((y % 8) * 8 + (x % 8))) 0
        + p.getD (2 * ((y % 8) * 8 + (x % 8)) + 1) 0 = 0xFFFF →
      TzSearch.zoneLookup leaves x y (fuel + 1) i = .result none) ∧
     (256 * p.getD (2 * ((y % 8) * 8 + (x % 8))) 0
        + p.getD (2 * ((y % 8) * 8 + (x % 8)) + 1) 0 ≠ 0xFFFF →
      TzSearch.zoneLookup leaves x y (fuel + 1) i =
        TzSearch.zoneLookup leaves x y fuel
          (256 * p.getD (2 * ((y % 8) * 8 + (x % 8))) 0
            + p.getD (2 * ((y % 8) * 8 + (x % 8)) + 1) 0))) := by
  have hentry : pixmapEntry p ((y &&& 7) * 8 + (x &&& 7)) =
      256 * p.getD (2 * ((y % 8) * 8 + (x % 8))) 0
        + p.getD (2 * ((y % 8) * 8 + (x % 8)) + 1) 0 := by
    rw [pixmapEntry, and_seven_eq_mod x, and_seven_eq_mod y, Nat.shiftLeft_eq]
    ring
  constructor
  · intro hocean
    rw [TzSearch.zoneLookup, hleaf]
    simp only
    rw [hentry, if_pos hocean]
  · intro hother
    rw [TzSearch.zoneLookup, hleaf]
    simp only
    rw [hentry, if_neg hother]

/-- C6 witness: an all-`0xFF` pixmap reads the ocean sentinel at pixel
`(3,4)` and answers 'no timezone' immediately. -/
theorem claim_C6_witness :
    TzSearch.zoneLookup [Zone.Pixmap (List.replicate 128 255)] 3 4 1 0 =
      LookupOutcome.result none :=
  (claim_C6 [Zone.Pixmap (List.replicate 128 255)] (List.replicate 128 255)
    3 4 0 0 rfl).1 (by decide)

/-- C7 (confirmed).  `TzSearch::lookup` checks `-90 ≤ lat ≤ 90` and
`-180 ≤ lon ≤ 180` before computing any pixel coordinate: every
out-of-range input panics (assertion failure, modelled as `none`), and
in-range inputs proceed with the pixel computed from the original
geographic coordinates — only the converted pixel coordinate is ever
clamped, never the geographic input. -/
theorem claim_C7 :
    (∀ (s : TzSearch) (fuel : Nat) (lat long : ℚ),
      ¬ ((-90 ≤ lat ∧ lat ≤ 90) ∧ (-180 ≤ long ∧ long ≤ 180)) →
      TzSearch.lookup s fuel lat long = none) ∧
    (∀ (s : TzSearch) (fuel : Nat) (lat long : ℚ),
      -90 ≤ lat → lat ≤ 90 → -180 ≤ long → long ≤ 180 →
      TzSearch.lookup s fuel lat long =
        some (TzSearch.lookupPixel s fuel (TzSearch.pixelX long) (TzSearch.pixelY lat))) := by
  constructor
  · intro s fuel lat long h
    rw [TzSearch.lookup, if_neg h]
  · intro s fuel lat long h1 h2 h3 h4
    rw [TzSearch.lookup, if_pos ⟨⟨h1, h2⟩, ⟨h3, h4⟩⟩]

/-- C7 witness: `lat = 91` is rejected by the assertion (panic) before any
pixel computation. -/
theorem claim_C7_witness : TzSearch.lookup ⟨[], []⟩ 0 91 0 = none :=
  claim_C7.1 ⟨[], []⟩ 0 91 0 (by norm_num)

/-- C8 (confirmed).  If every leaf reference is a valid index and the
reference relation admits no cycle (so every chain is finite, ending in a
`StaticZone` or the ocean sentinel), then `zone_lookup` terminates from
every valid starting leaf and pixel with recursion depth bounded by the
number of leaves: fuel equal to `leaves.length` always reaches a result. -/
theorem claim_C8 (leaves : List Zone) (x y i : Nat)
    (hvalid : ∀ a b, refRel leaves a b → b < leaves.length)
    (hacyc : ∀ j, ¬ Relation.TransGen (refRel leaves) j j)
    (hi : i < leaves.length) :
    ∃ r : Option String,
      TzSearch.zoneLookup leaves x y leaves.length i = .result r :=
  zoneLookup_terminates leaves x y i hvalid hacyc hi

/-- C8 witness: a one-leaf store consisting of a `StaticZone` trivially
satisfies the preconditions, and resolution completes within fuel 1. -/
theorem claim_C8_witness :
    ∃ r : Option String,
      TzSearch.zoneLookup [Zone.StaticZone "A"] 0 0 1 0 = .result r := by
  have hnoref : ∀ a b : Nat, ¬ refRel [Zone.StaticZone "A"] a b := by
    rintro a b ⟨z, hz, hr⟩
    match a, hz with
    | 0, hz =>
      have : z = Zone.StaticZone "A" := by simpa using hz.symm
      rw [this] at hr
      exact hr
  have h := claim_C8 [Zone.StaticZone "A"] 0 0 0
    (fun a b hab => absurd hab (hnoref a b))
    (fun j hj => by
      cases hj with
      | single hstep => exact hnoref _ _ hstep
      | tail _ hstep => exact hnoref _ _ hstep)
    (by norm_num)
  simpa using h

/-- C9 (confirmed).  `TileKey::new` is a pure total function computing
`((level % 8) << 28) | ((tile_y % 2^14) << 14) | (tile_x % 2^14)`, a
32-bit value; equivalently the sum of the three disjoint shifted fields,
each recoverable by shifting and masking. -/
theorem claim_C9 (size x y : Nat) :
    TileKey.new size x y =
      ((size % 8) <<< 28) ||| ((y % 2 ^ 14) <<< 14) ||| (x % 2 ^ 14) ∧
    TileKey.new size x y =
      (size % 8) * 2 ^ 28 + (y % 2 ^ 14) * 2 ^ 14 + (x % 2 ^ 14) ∧
    TileKey.new size x y < 2 ^ 32 ∧
    (TileKey.new size x y) >>> 28 = size % 8 ∧
    ((TileKey.new size x y) >>> 14) % 2 ^ 14 = y % 2 ^ 14 ∧
    (TileKey.new size x y) % 2 ^ 14 = x % 2 ^ 14 := by
  obtain ⟨h1, h2, h3, h4⟩ := TileKey.new_fields size x y
  exact ⟨by rw [TileKey.new]; norm_num [Nat.one_shiftLeft],
    TileKey.new_eq_add size x y, h1, h2, h3, h4⟩

/-- C10 (amended).  When the leaves stream ends during an `'S'` record
before any NUL, `read_until` delivers all remaining bytes without error
and the conditional pop strips nothing, so — provided those bytes are
valid UTF-8 — they are silently accepted as the final zone name rather
than rejected as truncated.  (Bytes that are not valid UTF-8 are still
rejected, by the UTF-8 check rather than any truncation check.) -/
theorem claim_C10 (r : List Nat) (cs : List Char)
    (hnz : 0 ∉ r) (hutf : utf8Decode r = some cs) :
    decodeLeaf (83 :: r) = .ok (Zone.StaticZone (String.mk cs), []) ∧
    readUntil0 r = (r, []) ∧
    stripLast0 r = r := by
  have h1 := readUntil0_no_zero r hnz
  have h2 := stripLast0_no_zero r hnz
  refine ⟨?_, h1, h2⟩
  rw [decodeLeaf, if_pos rfl, h1]
  simp only [h2, hutf]

/-- C10 counterexample.  A stream ending inside an `'S'` record with no NUL
is not always accepted: the byte `0xFF` is invalid UTF-8, so the decoder
reports an error (though an invalid-UTF-8 error, not a truncation one). -/
theorem claim_C10_counterexample :
    decodeLeaf [83, 255] = DecRes.err ∧ (0 : Nat) ∉ [(255 : Nat)] := by
  exact ⟨by decide, by decide⟩

/-- C10 witness: the unterminated name `"a"` at end of stream decodes
without error, consuming everything. -/
theorem claim_C10_witness :
    decodeLeaf [83, 97] = DecRes.ok (Zone.StaticZone "a", []) :=
  (claim_C10 [97] ['a'] (by decide) (by decide)).1
